import Mathlib

/-!
Verification of the linenoisers line-editing library (src/lib.rs).

Strings from the Rust source are modelled as `List Char` (Rust `String` /
`Vec<char>` both hold Unicode scalar values).  Each definition below is a
direct translation of the correspondingly named Rust item.
-/

namespace Linenoisers

/-- `LINENOISE_MAX_LINE` constant (src/lib.rs line 55). -/
def LINENOISE_MAX_LINE : Nat := 4096

/-- `LINENOISE_DEFAULT_HISTORY_MAX_LEN` constant (src/lib.rs line 54). -/
def LINENOISE_DEFAULT_HISTORY_MAX_LEN : Nat := 100

/-- `struct LineBuffer { chars: Vec<char>, pos: usize }` (src/lib.rs lines 402-405). -/
structure LineBuffer where
  chars : List Char
  pos : Nat
deriving Repr, DecidableEq

namespace LineBuffer

/-- `LineBuffer::new` (src/lib.rs lines 408-413). -/
def new : LineBuffer := ⟨[], 0⟩

/-- `LineBuffer::insert` (src/lib.rs lines 415-422): reject when
`chars.len() >= LINENOISE_MAX_LINE - 1`, otherwise `Vec::insert(pos, c)`
and advance the cursor. -/
def insert (b : LineBuffer) (c : Char) : LineBuffer × Bool :=
  if LINENOISE_MAX_LINE - 1 ≤ b.chars.length then (b, false)
  else ({ chars := b.chars.take b.pos ++ c :: b.chars.drop b.pos, pos := b.pos + 1 }, true)

/-- `LineBuffer::delete` (src/lib.rs lines 424-431): `Vec::remove(pos)` when
`pos < chars.len()`. -/
def delete (b : LineBuffer) : LineBuffer × Bool :=
  if b.pos < b.chars.length then
    ({ chars := b.chars.take b.pos ++ b.chars.drop (b.pos + 1), pos := b.pos }, true)
  else (b, false)

/-- `LineBuffer::backspace` (src/lib.rs lines 433-441). -/
def backspace (b : LineBuffer) : LineBuffer × Bool :=
  if 0 < b.pos then
    ({ chars := b.chars.take (b.pos - 1) ++ b.chars.drop b.pos, pos := b.pos - 1 }, true)
  else (b, false)

/-- `LineBuffer::move_left` (src/lib.rs lines 443-450). -/
def move_left (b : LineBuffer) : LineBuffer × Bool :=
  if 0 < b.pos then ({ b with pos := b.pos - 1 }, true) else (b, false)

/-- `LineBuffer::move_right` (src/lib.rs lines 452-459). -/
def move_right (b : LineBuffer) : LineBuffer × Bool :=
  if b.pos < b.chars.length then ({ b with pos := b.pos + 1 }, true) else (b, false)

/-- `LineBuffer::move_home` (src/lib.rs lines 461-463). -/
def move_home (b : LineBuffer) : LineBuffer := { b with pos := 0 }

/-- `LineBuffer::move_end` (src/lib.rs lines 465-467). -/
def move_end (b : LineBuffer) : LineBuffer := { b with pos := b.chars.length }

/-- `LineBuffer::delete_to_end` (src/lib.rs lines 469-471): `truncate(pos)`. -/
def delete_to_end (b : LineBuffer) : LineBuffer := { b with chars := b.chars.take b.pos }

/-- The backwards-scanning `while pos > 0 && f(chars[pos-1])` loops of
`LineBuffer::delete_word` (src/lib.rs lines 477-484), as one generic helper. -/
def skipBack (chars : List Char) (f : Char → Bool) : Nat → Nat
  | 0 => 0
  | p + 1 => if f (chars.getD p ' ') then skipBack chars f p else p + 1

/-- `LineBuffer::delete_word` (src/lib.rs lines 473-487): skip spaces, skip
the word, then `drain(pos..start)`. -/
def delete_word (b : LineBuffer) : LineBuffer :=
  let start := b.pos
  let p1 := skipBack b.chars (fun c => c == ' ') start
  let p2 := skipBack b.chars (fun c => c != ' ') p1
  { chars := b.chars.take p2 ++ b.chars.drop start, pos := p2 }

/-- `LineBuffer::clear` (src/lib.rs lines 489-492). -/
def clear (_b : LineBuffer) : LineBuffer := ⟨[], 0⟩

/-- `LineBuffer::set` (src/lib.rs lines 494-497): take the first
`LINENOISE_MAX_LINE - 1` characters and put the cursor at the end. -/
def set (_b : LineBuffer) (s : List Char) : LineBuffer :=
  let cs := s.take (LINENOISE_MAX_LINE - 1)
  ⟨cs, cs.length⟩

end LineBuffer

/-- The single edit operations of `LineBuffer` (the claims quantify over them). -/
inductive EditOp where
  | insertChar (c : Char)
  | deleteChar
  | backspaceChar
  | moveLeft
  | moveRight
  | moveHome
  | moveEnd
  | deleteToEnd
  | deleteWord
  | clearLine
  | setLine (s : List Char)
deriving Repr, DecidableEq

/-- Apply one edit operation to a `LineBuffer` (dropping the `bool` results,
which only signal whether a redraw is needed). -/
def applyOp (b : LineBuffer) : EditOp → LineBuffer
  | .insertChar c => (b.insert c).1
  | .deleteChar => b.delete.1
  | .backspaceChar => b.backspace.1
  | .moveLeft => b.move_left.1
  | .moveRight => b.move_right.1
  | .moveHome => b.move_home
  | .moveEnd => b.move_end
  | .deleteToEnd => b.delete_to_end
  | .deleteWord => b.delete_word
  | .clearLine => b.clear
  | .setLine s => b.set s

/-- The cursor invariant `0 ≤ cursor ≤ length` (the lower bound is implicit in
`Nat`). -/
def CursorInv (b : LineBuffer) : Prop := b.pos ≤ b.chars.length

instance (b : LineBuffer) : Decidable (CursorInv b) := by
  unfold CursorInv; infer_instance

/-- `struct History { max_len, entries: VecDeque<String> }` (src/lib.rs lines
121-125); the head of the list is the oldest entry, the last element the
newest (`push_back` appends, `pop_front` drops the head). -/
structure History where
  max_len : Nat
  entries : List (List Char)
deriving Repr, DecidableEq

/-- `History::add` (src/lib.rs lines 135-152): reject empty lines and a line
equal to the newest entry; evict the oldest entry when full; append. -/
def History.add (h : History) (line : List Char) : History × Bool :=
  if h.max_len = 0 ∨ line = [] then (h, false)
  else if h.entries.getLast? = some line then (h, false)
  else
    let trimmed := if h.max_len ≤ h.entries.length then h.entries.tail else h.entries
    ({ h with entries := trimmed ++ [line] }, true)

/-- `linenoise_history_set_max_len` (src/lib.rs lines 1184-1194): reject
`len < 1`, then pop from the front while the ring is longer than `len`. -/
def historySetMaxLen (h : History) (len : Nat) : History × Bool :=
  if len < 1 then (h, false)
  else ({ max_len := len, entries := h.entries.drop (h.entries.length - len) }, true)

/-- `History::get` (src/lib.rs lines 154-159):
`entries.get(len.wrapping_sub(index))`; the 64-bit wrap-around is modelled
exactly (for `index > len` the wrapped index is out of range, giving `none`,
just as in the source). -/
def historyGet (entries : List (List Char)) (index : Nat) : Option (List Char) :=
  entries.get? ((2 ^ 64 + entries.length - index) % 2 ^ 64)

/-- The history-navigation fields of `Editor` (src/lib.rs lines 504-513):
the line buffer, `history_index` and `saved_line`. -/
structure NavState where
  buffer : LineBuffer
  history_index : Nat
  saved_line : Option (List Char)
deriving Repr, DecidableEq

/-- `Editor::handle_history` (src/lib.rs lines 818-851), minus the final
`refresh_line` screen write. -/
def handleHistory (hist : List (List Char)) (dir : Int) (s : NavState) : NavState :=
  if hist.length = 0 then s
  else
    let s1 := if s.history_index = 0 ∧ s.saved_line = none
              then { s with saved_line := some s.buffer.chars }
              else s
    let idx := if 0 < dir then
                 (if s1.history_index < hist.length then s1.history_index + 1
                  else s1.history_index)
               else
                 (if 0 < s1.history_index then s1.history_index - 1
                  else s1.history_index)
    let s2 := { s1 with history_index := idx }
    if idx = 0 then
      match s2.saved_line with
      | some saved => { s2 with buffer := s2.buffer.set saved }
      | none => s2
    else
      match historyGet hist idx with
      | some entry => { s2 with buffer := s2.buffer.set entry }
      | none => s2

/-- `k` repeated invocations of `Editor::handle_history` in one direction. -/
def runSteps (hist : List (List Char)) (dir : Int) : Nat → NavState → NavState
  | 0, s => s
  | n + 1, s => runSteps hist dir n (handleHistory hist dir s)

/-- `struct CompletionState` (src/lib.rs lines 515-518). -/
structure CompletionState where
  original_line : List Char
  current_index : Nat
deriving Repr, DecidableEq

/-- The completion-related fields of `Editor` (src/lib.rs lines 504-513). -/
structure CompEditor where
  buffer : LineBuffer
  completion_state : Option CompletionState
deriving Repr, DecidableEq

/-- `Editor::handle_completion` (src/lib.rs lines 758-812), minus the
`refresh_line`/beep screen writes; the user callback is a pure function from
the queried line to the candidate list.  Returns the Rust function's
`Ok(bool)` value alongside the updated editor fields. -/
def handleCompletion (cb : List Char → List (List Char)) (e : CompEditor) :
    CompEditor × Bool :=
  let line := match e.completion_state with
              | some cs => cs.original_line
              | none => e.buffer.chars
  let completions := cb line
  if completions.length = 0 then
    ({ e with completion_state := none }, false)
  else
    match e.completion_state with
    | some cs =>
        let idx := (cs.current_index + 1) % completions.length
        match completions.get? idx with
        | some comp =>
            ({ buffer := e.buffer.set comp,
               completion_state := some ⟨cs.original_line, idx⟩ }, true)
        | none => ({ e with completion_state := some ⟨cs.original_line, idx⟩ }, true)
    | none =>
        match completions.get? 0 with
        | some first =>
            ({ buffer := e.buffer.set first,
               completion_state := some ⟨line, 0⟩ }, true)
        | none => ({ e with completion_state := some ⟨line, 0⟩ }, true)

/-- `Editor::accept_completion` (src/lib.rs lines 814-816), run by
`process_key` for every non-Tab byte while completion is active
(src/lib.rs lines 900-902). -/
def acceptCompletion (e : CompEditor) : CompEditor := { e with completion_state := none }

/-- A concrete completion generator: `["foo", "foobar"]` for input `"f"`. -/
def cbFoo (l : List Char) : List (List Char) :=
  if l = ['f'] then [['f', 'o', 'o'], ['f', 'o', 'o', 'b', 'a', 'r']] else []

/-- `content_rows` computation of `Editor::refresh_multiline`
(src/lib.rs lines 636-644): `content_len = plen + chars.len()`, one row when
empty, otherwise `(content_len + cols - 1) / cols`. -/
def multilineContentRows (plen blen cols : Nat) : Nat :=
  let content_len := plen + blen
  if content_len = 0 then 1 else (content_len + cols - 1) / cols

/-- `phantom_line` condition of `Editor::refresh_multiline`
(src/lib.rs lines 646-648): cursor at end of content, `cursor_pos > 0`, and
`cursor_pos % cols == 0` where `cursor_pos = plen + pos`. -/
def multilinePhantom (plen blen pos cols : Nat) : Bool :=
  decide (pos = blen ∧ 0 < plen + pos ∧ (plen + pos) % cols = 0)

/-- `total_rows` of `Editor::refresh_multiline` (src/lib.rs lines 650-654). -/
def multilineTotalRows (plen blen pos cols : Nat) : Nat :=
  multilineContentRows plen blen cols +
    (if multilinePhantom plen blen pos cols then 1 else 0)

/-- The row-count formula exactly as the spec's claim words it:
`ceil((prompt_len + L) / w)` with minimum 1, plus one extra row when the
cursor is at end of content and `p + c` is an exact multiple of `w`. -/
def specTotalRowsClaim (plen blen pos cols : Nat) : Nat :=
  max 1 ((plen + blen + cols - 1) / cols) +
    (if pos = blen ∧ (plen + pos) % cols = 0 then 1 else 0)

/-- The row-count formula amended with the `0 < p + c` condition that the
code actually checks. -/
def specTotalRowsAmended (plen blen pos cols : Nat) : Nat :=
  max 1 ((plen + blen + cols - 1) / cols) +
    (if pos = blen ∧ 0 < plen + pos ∧ (plen + pos) % cols = 0 then 1 else 0)

/-- Lead-byte classification of `Editor::process_key` for bytes `>= 128`
(src/lib.rs lines 1007-1015): `110xxxxx` needs 2 bytes, `1110xxxx` 3,
`11110xxx` 4, anything else is an invalid start byte (1). -/
def utf8BytesNeeded (c : Nat) : Nat :=
  if c &&& 0xE0 = 0xC0 then 2
  else if c &&& 0xF0 = 0xE0 then 3
  else if c &&& 0xF8 = 0xF0 then 4
  else 1

/-- UTF-8 continuation-byte test `next_byte & 0xC0 == 0x80`
(src/lib.rs line 1020). -/
def isCont (b : Nat) : Bool := b &&& 0xC0 == 0x80

/-- The read loop of src/lib.rs lines 1018-1028: collect up to `n` further
bytes from the pending input, stopping at the first non-continuation byte
or at end of input. -/
def readContinuations (avail : List Nat) : Nat → List Nat
  | 0 => []
  | n + 1 =>
    match avail with
    | [] => []
    | b :: rest => if isCont b then b :: readContinuations rest n else []

/-- `std::str::from_utf8` on the collected bytes followed by
`chars().next()` (src/lib.rs lines 1032-1033), returning the decoded scalar
value: strict UTF-8 validation (shortest form, no surrogates, max
`0x10FFFF`). -/
def utf8Decode : List Nat → Option Nat
  | [b] => if b < 0x80 then some b else none
  | [b1, b2] =>
      if 0xC2 ≤ b1 ∧ b1 ≤ 0xDF ∧ isCont b2 then
        some ((b1 - 0xC0) * 0x40 + (b2 - 0x80))
      else none
  | [b1, b2, b3] =>
      if b1 &&& 0xF0 = 0xE0 ∧ isCont b2 ∧ isCont b3 then
        let cp := (b1 - 0xE0) * 0x1000 + (b2 - 0x80) * 0x40 + (b3 - 0x80)
        if 0x800 ≤ cp ∧ ¬(0xD800 ≤ cp ∧ cp ≤ 0xDFFF) then some cp else none
      else none
  | [b1, b2, b3, b4] =>
      if b1 &&& 0xF8 = 0xF0 ∧ isCont b2 ∧ isCont b3 ∧ isCont b4 then
        let cp := (b1 - 0xF0) * 0x40000 + (b2 - 0x80) * 0x1000 +
                  (b3 - 0x80) * 0x40 + (b4 - 0x80)
        if 0x10000 ≤ cp ∧ cp ≤ 0x10FFFF then some cp else none
      else none
  | _ => none

/-- The byte sequence collected for lead byte `c`: `utf8_buf` after the read
loop (src/lib.rs lines 1004-1028). -/
def collectedUtf8 (c : Nat) (avail : List Nat) : List Nat :=
  c :: readContinuations avail (utf8BytesNeeded c - 1)

/-- The `c >= 128` branch of `Editor::process_key` (src/lib.rs lines
1002-1048): returns the updated buffer and whether the audible bell was
emitted. -/
def processHighByte (c : Nat) (avail : List Nat) (b : LineBuffer) :
    LineBuffer × Bool :=
  let needed := utf8BytesNeeded c
  let buf := collectedUtf8 c avail
  if buf.length = needed then
    match utf8Decode buf with
    | some cp =>
        let r := b.insert (Char.ofNat cp)
        (r.1, !r.2)
    | none => (b, false)
  else (b, true)

lemma skipBack_le (chars : List Char) (f : Char → Bool) (p : Nat) :
    LineBuffer.skipBack chars f p ≤ p := by
  induction p with
  | zero => simp [LineBuffer.skipBack]
  | succ p ih =>
      rw [LineBuffer.skipBack]
      split
      · omega
      · omega

lemma skipBack_holds (chars : List Char) (f : Char → Bool) :
    ∀ p i, LineBuffer.skipBack chars f p ≤ i → i < p → f (chars.getD i ' ') = true := by
  intro p
  induction p with
  | zero => intro i _ h2; omega
  | succ p ih =>
      intro i h1 h2
      by_cases hf : f (chars.getD p ' ') = true
      · rw [LineBuffer.skipBack, if_pos hf] at h1
        rcases Nat.lt_succ_iff_lt_or_eq.mp h2 with h | h
        · exact ih i h1 h
        · exact h ▸ hf
      · rw [LineBuffer.skipBack, if_neg hf] at h1
        omega

lemma applyOp_preserves_cursorInv (b : LineBuffer) (op : EditOp) (h : CursorInv b) :
    CursorInv (applyOp b op) := by
  unfold CursorInv at h ⊢
  cases op with
  | insertChar c =>
      simp only [applyOp, LineBuffer.insert]
      split_ifs
      · exact h
      · show b.pos + 1 ≤ (b.chars.take b.pos ++ c :: b.chars.drop b.pos).length
        simp
        omega
  | deleteChar =>
      simp only [applyOp, LineBuffer.delete]
      split_ifs with hc
      · show b.pos ≤ (b.chars.take b.pos ++ b.chars.drop (b.pos + 1)).length
        simp
        omega
      · exact h
  | backspaceChar =>
      simp only [applyOp, LineBuffer.backspace]
      split_ifs with hc
      · show b.pos - 1 ≤ (b.chars.take (b.pos - 1) ++ b.chars.drop b.pos).length
        simp
        omega
      · exact h
  | moveLeft =>
      simp only [applyOp, LineBuffer.move_left]
      split_ifs
      · show b.pos - 1 ≤ b.chars.length
        omega
      · exact h
  | moveRight =>
      simp only [applyOp, LineBuffer.move_right]
      split_ifs with hc
      · show b.pos + 1 ≤ b.chars.length
        omega
      · exact h
  | moveHome => show 0 ≤ b.chars.length; omega
  | moveEnd => show b.chars.length ≤ b.chars.length; omega
  | deleteToEnd =>
      show b.pos ≤ (b.chars.take b.pos).length
      simp
      omega
  | deleteWord =>
      have h1 := skipBack_le b.chars (fun c => c == ' ') b.pos
      have h2 := skipBack_le b.chars (fun c => c != ' ')
        (LineBuffer.skipBack b.chars (fun c => c == ' ') b.pos)
      show LineBuffer.skipBack b.chars (fun c => c != ' ')
          (LineBuffer.skipBack b.chars (fun c => c == ' ') b.pos) ≤
        (b.chars.take (LineBuffer.skipBack b.chars (fun c => c != ' ')
          (LineBuffer.skipBack b.chars (fun c => c == ' ') b.pos)) ++
         b.chars.drop b.pos).length
      simp
      omega
  | clearLine => show 0 ≤ ([] : List Char).length; omega
  | setLine s =>
      show (s.take (LINENOISE_MAX_LINE - 1)).length ≤ (s.take (LINENOISE_MAX_LINE - 1)).length
      omega

lemma foldl_preserves_cursorInv (ops : List EditOp) :
    ∀ b : LineBuffer, CursorInv b → CursorInv (ops.foldl applyOp b) := by
  induction ops with
  | nil => intro b h; exact h
  | cons op rest ih =>
      intro b h
      exact ih _ (applyOp_preserves_cursorInv b op h)

/-- C1: every single LineBuffer edit operation (insert, delete, backspace,
move_left, move_right, move_home, move_end, delete_to_end, delete_word,
clear, set) preserves the invariant `0 ≤ cursor ≤ length`, and hence the
invariant holds after every sequence of such operations starting from the
empty buffer. -/
theorem lineBuffer_cursor_invariant :
    (∀ (b : LineBuffer) (op : EditOp), CursorInv b → CursorInv (applyOp b op))
    ∧ ∀ ops : List EditOp, CursorInv (ops.foldl applyOp LineBuffer.new) :=
  ⟨applyOp_preserves_cursorInv,
   fun ops => foldl_preserves_cursorInv ops LineBuffer.new (by decide)⟩

/-- Witness for C1 at a concrete buffer and operation. -/
theorem lineBuffer_cursor_invariant_witness :
    CursorInv (applyOp ⟨['a', 'b'], 1⟩ (.insertChar 'x')) :=
  lineBuffer_cursor_invariant.1 ⟨['a', 'b'], 1⟩ (.insertChar 'x') (by decide)

/-- C3: a LineBuffer whose length is at the capacity bound
`LINENOISE_MAX_LINE - 1` rejects any insert, leaving characters and cursor
unchanged; every operation keeps the length at most the bound, so under any
sequence of operations from the empty buffer the length never reaches
`LINENOISE_MAX_LINE`. -/
theorem lineBuffer_capacity_bound :
    (∀ (b : LineBuffer) (c : Char), b.chars.length = LINENOISE_MAX_LINE - 1 →
        b.insert c = (b, false))
    ∧ (∀ (b : LineBuffer) (op : EditOp),
        b.chars.length ≤ LINENOISE_MAX_LINE - 1 →
        (applyOp b op).chars.length ≤ LINENOISE_MAX_LINE - 1)
    ∧ ∀ ops : List EditOp,
        (ops.foldl applyOp LineBuffer.new).chars.length < LINENOISE_MAX_LINE := by
  have hfull : ∀ (b : LineBuffer) (c : Char),
      b.chars.length = LINENOISE_MAX_LINE - 1 → b.insert c = (b, false) := by
    intro b c h
    simp [LineBuffer.insert, h]
  have hstep : ∀ (b : LineBuffer) (op : EditOp),
      b.chars.length ≤ LINENOISE_MAX_LINE - 1 →
      (applyOp b op).chars.length ≤ LINENOISE_MAX_LINE - 1 := by
    intro b op h
    cases op with
    | insertChar c =>
        simp only [applyOp, LineBuffer.insert]
        split_ifs with hc
        · exact h
        · show (b.chars.take b.pos ++ c :: b.chars.drop b.pos).length ≤ _
          simp only [LINENOISE_MAX_LINE] at *
          simp
          omega
    | deleteChar =>
        simp only [applyOp, LineBuffer.delete]
        split_ifs with hc
        · show (b.chars.take b.pos ++ b.chars.drop (b.pos + 1)).length ≤ _
          simp
          omega
        · exact h
    | backspaceChar =>
        simp only [applyOp, LineBuffer.backspace]
        split_ifs with hc
        · show (b.chars.take (b.pos - 1) ++ b.chars.drop b.pos).length ≤ _
          simp
          omega
        · exact h
    | moveLeft =>
        simp only [applyOp, LineBuffer.move_left]
        split_ifs <;> exact h
    | moveRight =>
        simp only [applyOp, LineBuffer.move_right]
        split_ifs <;> exact h
    | moveHome => exact h
    | moveEnd => exact h
    | deleteToEnd =>
        show (b.chars.take b.pos).length ≤ _
        simp
        omega
    | deleteWord =>
        have h1 := skipBack_le b.chars (fun c => c == ' ') b.pos
        have h2 := skipBack_le b.chars (fun c => c != ' ')
          (LineBuffer.skipBack b.chars (fun c => c == ' ') b.pos)
        show (b.chars.take (LineBuffer.skipBack b.chars (fun c => c != ' ')
            (LineBuffer.skipBack b.chars (fun c => c == ' ') b.pos)) ++
          b.chars.drop b.pos).length ≤ _
        simp
        omega
    | setLine s =>
        show (s.take (LINENOISE_MAX_LINE - 1)).length ≤ _
        simp
    | clearLine =>
        show ([] : List Char).length ≤ _
        simp
  have hfold : ∀ (ops : List EditOp) (b : LineBuffer),
      b.chars.length ≤ LINENOISE_MAX_LINE - 1 →
      (ops.foldl applyOp b).chars.length ≤ LINENOISE_MAX_LINE - 1 := by
    intro ops
    induction ops with
    | nil => intro b h; exact h
    | cons op rest ih => intro b h; exact ih _ (hstep b op h)
  refine ⟨hfull, hstep, fun ops => ?_⟩
  have := hfold ops LineBuffer.new (by decide)
  simp only [LINENOISE_MAX_LINE] at *
  omega

/-- Witness for C3: a buffer filled to 4095 characters rejects an insert. -/
theorem lineBuffer_capacity_bound_witness :
    (LineBuffer.insert ⟨List.replicate 4095 'a', 0⟩ 'x') =
      (⟨List.replicate 4095 'a', 0⟩, false) :=
  lineBuffer_capacity_bound.1 ⟨List.replicate 4095 'a', 0⟩ 'x'
    (by rw [List.length_replicate]; decide)

/-- C9: `delete_word` first skips the run of spaces before the cursor, then
the non-space word before that, and removes exactly the span between the new
and old cursor positions; on `"hello world "` with the cursor at the end it
yields `"hello "` with the cursor at position 6. -/
theorem delete_word_behavior :
    LineBuffer.delete_word ⟨"hello world ".toList, 12⟩ = ⟨"hello ".toList, 6⟩
    ∧ ∀ b : LineBuffer,
        (LineBuffer.delete_word b).pos =
          LineBuffer.skipBack b.chars (fun c => c != ' ')
            (LineBuffer.skipBack b.chars (fun c => c == ' ') b.pos)
        ∧ LineBuffer.skipBack b.chars (fun c => c == ' ') b.pos ≤ b.pos
        ∧ (LineBuffer.delete_word b).pos ≤
            LineBuffer.skipBack b.chars (fun c => c == ' ') b.pos
        ∧ (∀ i, LineBuffer.skipBack b.chars (fun c => c == ' ') b.pos ≤ i →
            i < b.pos → b.chars.getD i ' ' = ' ')
        ∧ (∀ i, (LineBuffer.delete_word b).pos ≤ i →
            i < LineBuffer.skipBack b.chars (fun c => c == ' ') b.pos →
            b.chars.getD i ' ' ≠ ' ')
        ∧ (LineBuffer.delete_word b).chars =
            b.chars.take (LineBuffer.delete_word b).pos ++ b.chars.drop b.pos := by
  refine ⟨by decide, fun b => ⟨rfl, skipBack_le _ _ _, skipBack_le _ _ _, ?_, ?_, rfl⟩⟩
  · intro i h1 h2
    have := skipBack_holds b.chars (fun c => c == ' ') b.pos i h1 h2
    simpa using this
  · intro i h1 h2
    have h1' : LineBuffer.skipBack b.chars (fun c => c != ' ')
        (LineBuffer.skipBack b.chars (fun c => c == ' ') b.pos) ≤ i := h1
    have := skipBack_holds b.chars (fun c => c != ' ') _ i h1' h2
    simpa using this

/-- Witness for C9: the characters skipped by the space phase are spaces. -/
theorem delete_word_behavior_witness :
    ("hello world ".toList).getD 11 ' ' = ' ' :=
  (delete_word_behavior.2 ⟨"hello world ".toList, 12⟩).2.2.2.1 11 (by decide) (by decide)

/-- C10: `LineBuffer::set` stores exactly the first
`min (length, LINENOISE_MAX_LINE - 1)` characters of its argument and puts
the cursor at the new buffer length; consequently history navigation and
completion, which load lines exclusively through `set`, never leave a buffer
longer than `LINENOISE_MAX_LINE - 1`. -/
theorem set_truncates_line :
    (∀ (b : LineBuffer) (s : List Char),
        (b.set s).chars = s.take (LINENOISE_MAX_LINE - 1)
        ∧ (b.set s).pos = (b.set s).chars.length
        ∧ (b.set s).chars.length = min s.length (LINENOISE_MAX_LINE - 1))
    ∧ (∀ (hist : List (List Char)) (dir : Int) (st : NavState),
        (handleHistory hist dir st).buffer = st.buffer
        ∨ (handleHistory hist dir st).buffer.chars.length ≤ LINENOISE_MAX_LINE - 1)
    ∧ (∀ (cb : List Char → List (List Char)) (e : CompEditor),
        (handleCompletion cb e).1.buffer = e.buffer
        ∨ (handleCompletion cb e).1.buffer.chars.length ≤ LINENOISE_MAX_LINE - 1) := by
  have hset : ∀ (b : LineBuffer) (s : List Char),
      (b.set s).chars.length ≤ LINENOISE_MAX_LINE - 1 := by
    intro b s
    simp [LineBuffer.set]
  refine ⟨fun b s => ⟨rfl, rfl, ?_⟩, fun hist dir st => ?_, fun cb e => ?_⟩
  · simp [LineBuffer.set, Nat.min_comm]
  · simp only [handleHistory]
    repeat' split
    all_goals first
      | (left; rfl)
      | (right; simp [LineBuffer.set])
  · simp only [handleCompletion]
    repeat' split
    all_goals first
      | (left; rfl)
      | (right; simp [LineBuffer.set])

/-- C4 counterexample: with the ring at capacity (`max_len = 1`, newest entry
`"a"`), adding the distinct line `""` does not evict-and-append; the ring is
left unchanged because `History::add` rejects empty lines. -/
theorem history_add_empty_line_cex :
    (History.add ⟨1, [['a']]⟩ []).1 = ⟨1, [['a']]⟩
    ∧ (History.add ⟨1, [['a']]⟩ []).1.entries ≠ [['a']].tail ++ [([] : List Char)] := by
  constructor
  · decide
  · decide

/-- C4 amended: adding a line equal to the newest entry leaves the ring
unchanged; adding a distinct NON-EMPTY line when the length equals
`max_len ≥ 1` evicts the oldest entry and appends, keeping the length equal
to `max_len`; shrinking `max_len` immediately drops the oldest entries,
keeping exactly the newest `len` entries. -/
theorem history_ring_amended :
    (∀ (h : History) (line : List Char),
        h.entries.getLast? = some line → History.add h line = (h, false))
    ∧ (∀ (h : History) (line : List Char),
        line ≠ [] → 1 ≤ h.max_len → h.entries.length = h.max_len →
        ¬ h.entries.getLast? = some line →
        (History.add h line).1.entries = h.entries.tail ++ [line]
        ∧ (History.add h line).1.entries.length = h.max_len
        ∧ (History.add h line).1.max_len = h.max_len)
    ∧ (∀ (h : History) (len : Nat), 1 ≤ len → len ≤ h.entries.length →
        (historySetMaxLen h len).1.entries = h.entries.drop (h.entries.length - len)
        ∧ (historySetMaxLen h len).1.entries.length = len
        ∧ (historySetMaxLen h len).1.max_len = len) := by
  refine ⟨fun h line hlast => ?_, fun h line hne hml hfull hlast => ?_,
    fun h len h1 h2 => ?_⟩
  · unfold History.add
    by_cases hc1 : h.max_len = 0 ∨ line = []
    · rw [if_pos hc1]
    · rw [if_neg hc1, if_pos hlast]
  · have hc1 : ¬ (h.max_len = 0 ∨ line = []) := by
      push_neg
      exact ⟨by omega, hne⟩
    have htrim : h.max_len ≤ h.entries.length := by omega
    unfold History.add
    rw [if_neg hc1, if_neg hlast]
    dsimp only
    rw [if_pos htrim]
    refine ⟨rfl, ?_, rfl⟩
    simp only [List.length_append, List.length_tail, List.length_cons, List.length_nil]
    omega
  · have hc : ¬ len < 1 := by omega
    unfold historySetMaxLen
    rw [if_neg hc]
    refine ⟨rfl, ?_, rfl⟩
    simp only [List.length_drop]
    omega

/-- Witness for C4 (amended): a full ring of capacity 2 evicts its oldest
entry when a new distinct line arrives. -/
theorem history_ring_amended_witness :
    (History.add ⟨2, [['a'], ['b']]⟩ ['c']).1.entries = [['b'], ['c']]
    ∧ (History.add ⟨2, [['a'], ['b']]⟩ ['c']).1.entries.length = 2 := by
  have h := history_ring_amended.2.1 ⟨2, [['a'], ['b']]⟩ ['c']
    (by decide) (by decide) (by decide) (by decide)
  exact ⟨h.1, h.2.1⟩

/-- C7 counterexample: at `plen = 0`, `content = ""`, `cursor = 0`,
`cols = 2` the claim's formula predicts 2 rows (since `p + c = 0` is an
exact multiple of `w`), but `refresh_multiline` computes 1 row because the
phantom-line test also requires `cursor_pos > 0`. -/
theorem multiline_rows_cex :
    multilineTotalRows 0 0 0 2 = 1
    ∧ specTotalRowsClaim 0 0 0 2 = 2
    ∧ multilineTotalRows 0 0 0 2 ≠ specTotalRowsClaim 0 0 0 2 := by
  refine ⟨by decide, by decide, by decide⟩

/-- C7 amended: for `cols ≥ 1` and `pos ≤ blen`, the multi-line renderer's
total row count is `max 1 (ceil ((plen + blen) / cols))`, plus exactly one
phantom row when the cursor is at end of content, `plen + pos > 0`, and
`plen + pos` is an exact multiple of `cols`. -/
theorem multiline_rows_amended :
    ∀ plen blen pos cols : Nat, 1 ≤ cols → pos ≤ blen →
      multilineTotalRows plen blen pos cols = specTotalRowsAmended plen blen pos cols := by
  intro p L c w hw _hc
  have hrows : (if p + L = 0 then 1 else (p + L + w - 1) / w) =
      max 1 ((p + L + w - 1) / w) := by
    by_cases h : p + L = 0
    · have h0 : (p + L + w - 1) / w = 0 := Nat.div_eq_of_lt (by omega)
      rw [if_pos h, h0]
      omega
    · have h1 : 1 ≤ (p + L + w - 1) / w := by
        rw [Nat.le_div_iff_mul_le (by omega : 0 < w)]
        omega
      rw [if_neg h]
      omega
  unfold multilineTotalRows multilineContentRows multilinePhantom specTotalRowsAmended
  simp only [decide_eq_true_eq]
  rw [hrows]

/-- Witness for C7 (amended) at a configuration with a phantom row. -/
theorem multiline_rows_amended_witness :
    multilineTotalRows 2 5 5 7 = specTotalRowsAmended 2 5 5 7 :=
  multiline_rows_amended 2 5 5 7 (by decide) (by decide)

/-- C8 counterexample: the invalid lead byte `0x80` (pattern `10xxxxxx`) and
the complete-but-invalid overlong sequence `0xC0 0x80` are both discarded
WITHOUT a bell (`process_key` only beeps when the collected sequence is
shorter than the lead byte requires), contradicting the claim that every
invalid sequence raises an audible bell. -/
theorem utf8_invalid_lead_cex :
    processHighByte 0x80 [] ⟨[], 0⟩ = (⟨[], 0⟩, false)
    ∧ processHighByte 0xC0 [0x80] ⟨[], 0⟩ = (⟨[], 0⟩, false) := by
  refine ⟨by decide, by decide⟩

/-- C8 amended: any byte `≥ 0x80` whose collected sequence fails UTF-8
validation is discarded with no buffer mutation; the audible bell is emitted
exactly when the collected sequence is SHORTER than the lead byte's pattern
requires (missing or malformed continuation bytes); invalid lead bytes and
complete-but-invalid sequences are discarded silently. -/
theorem utf8_invalid_discarded_amended :
    ∀ (c : Nat) (avail : List Nat) (b : LineBuffer), 0x80 ≤ c →
      utf8Decode (collectedUtf8 c avail) = none →
      (processHighByte c avail b).1 = b
      ∧ ((processHighByte c avail b).2 = true ↔
          (collectedUtf8 c avail).length ≠ utf8BytesNeeded c) := by
  intro c avail b _hc hdec
  unfold processHighByte
  by_cases hlen : (collectedUtf8 c avail).length = utf8BytesNeeded c
  · simp [hlen, hdec]
  · simp [hlen]

/-- Witness for C8 (amended): lead byte `0xC3` with no continuation byte is
incomplete, so it is discarded and the bell rings. -/
theorem utf8_invalid_discarded_amended_witness :
    (processHighByte 0xC3 [] ⟨[], 0⟩).1 = ⟨[], 0⟩
    ∧ ((processHighByte 0xC3 [] ⟨[], 0⟩).2 = true ↔
        (collectedUtf8 0xC3 []).length ≠ utf8BytesNeeded 0xC3) :=
  utf8_invalid_discarded_amended 0xC3 [] ⟨[], 0⟩ (by decide) (by decide)

/-- C6: the first completion trigger snapshots the current line, queries the
generator on it and displays candidate 0; each subsequent consecutive trigger
queries the generator on the SAME snapshotted original line and displays the
candidate at the index advanced by one modulo the candidate count; on the
generator returning `["foo", "foobar"]` for `"f"` the triggers show `"foo"`,
`"foobar"`, `"foo"`; processing any non-trigger key discards the completion
state without touching the buffer, so the displayed candidate stays live.
(The displayed-candidate equations assume candidates of at most
`LINENOISE_MAX_LINE - 1` characters, `LineBuffer::set` truncating longer
ones.) -/
theorem completion_cycling :
    (∀ (cb : List Char → List (List Char)) (e : CompEditor) (first : List Char),
        e.completion_state = none →
        (cb e.buffer.chars).get? 0 = some first →
        first.length ≤ LINENOISE_MAX_LINE - 1 →
        handleCompletion cb e =
          (⟨⟨first, first.length⟩, some ⟨e.buffer.chars, 0⟩⟩, true))
    ∧ (∀ (cb : List Char → List (List Char)) (e : CompEditor)
          (cs : CompletionState) (cand : List Char),
        e.completion_state = some cs →
        (cb cs.original_line).get?
            ((cs.current_index + 1) % (cb cs.original_line).length) = some cand →
        cand.length ≤ LINENOISE_MAX_LINE - 1 →
        handleCompletion cb e =
          (⟨⟨cand, cand.length⟩,
            some ⟨cs.original_line,
                  (cs.current_index + 1) % (cb cs.original_line).length⟩⟩, true))
    ∧ ((handleCompletion cbFoo ⟨⟨['f'], 1⟩, none⟩).1.buffer.chars = ['f', 'o', 'o']
       ∧ (handleCompletion cbFoo
            (handleCompletion cbFoo ⟨⟨['f'], 1⟩, none⟩).1).1.buffer.chars =
          ['f', 'o', 'o', 'b', 'a', 'r']
       ∧ (handleCompletion cbFoo
            (handleCompletion cbFoo
              (handleCompletion cbFoo ⟨⟨['f'], 1⟩, none⟩).1).1).1.buffer.chars =
          ['f', 'o', 'o'])
    ∧ ∀ e : CompEditor,
        (acceptCompletion e).buffer = e.buffer
        ∧ (acceptCompletion e).completion_state = none := by
  refine ⟨?_, ?_, ⟨by decide, by decide, by decide⟩, fun e => ⟨rfl, rfl⟩⟩
  · intro cb e first hst hget hlen
    have hnz : ¬ (cb e.buffer.chars).length = 0 := by
      intro h0
      rw [List.length_eq_zero] at h0
      rw [h0] at hget
      simp at hget
    unfold handleCompletion
    rw [hst]
    dsimp only
    rw [if_neg hnz, hget]
    dsimp only
    have htake : first.take (LINENOISE_MAX_LINE - 1) = first :=
      List.take_of_length_le hlen
    simp [LineBuffer.set, htake]
  · intro cb e cs cand hst hget hlen
    have hnz : ¬ (cb cs.original_line).length = 0 := by
      intro h0
      rw [h0] at hget
      rw [List.length_eq_zero] at h0
      rw [h0] at hget
      simp at hget
    unfold handleCompletion
    rw [hst]
    dsimp only
    rw [if_neg hnz, hget]
    dsimp only
    have htake : cand.take (LINENOISE_MAX_LINE - 1) = cand :=
      List.take_of_length_le hlen
    simp [LineBuffer.set, htake]

/-- Witness for C6: the first trigger on `"f"` with the `cbFoo` generator. -/
theorem completion_cycling_witness :
    handleCompletion cbFoo ⟨⟨['f'], 1⟩, none⟩ =
      (⟨⟨['f', 'o', 'o'], ['f', 'o', 'o'].length⟩, some ⟨['f'], 0⟩⟩, true) :=
  completion_cycling.1 cbFoo ⟨⟨['f'], 1⟩, none⟩ ['f', 'o', 'o']
    rfl (by decide) (by decide)

lemma hh_first_step (hist : List (List Char)) (b0 : LineBuffer)
    (hlen : 1 ≤ hist.length) :
    ∃ b, handleHistory hist 1 ⟨b0, 0, none⟩ = ⟨b, 1, some b0.chars⟩ := by
  have hne : hist.length ≠ 0 := by omega
  have h2 : 0 < hist.length := by omega
  cases hg : historyGet hist 1 with
  | none => exact ⟨b0, by simp [handleHistory, hne, h2, hg]⟩
  | some e => exact ⟨LineBuffer.set b0 e, by simp [handleHistory, hne, h2, hg]⟩

lemma hh_step_up (hist : List (List Char)) (b0 : LineBuffer) (i : Nat)
    (sv : List Char) (h1 : 1 ≤ i) (h2 : i < hist.length) :
    ∃ b, handleHistory hist 1 ⟨b0, i, some sv⟩ = ⟨b, i + 1, some sv⟩ := by
  have hne : hist.length ≠ 0 := by omega
  have hi0 : i ≠ 0 := by omega
  cases hg : historyGet hist (i + 1) with
  | none => exact ⟨b0, by simp [handleHistory, hne, hi0, h2, hg]⟩
  | some e => exact ⟨LineBuffer.set b0 e, by simp [handleHistory, hne, hi0, h2, hg]⟩

lemma hh_step_down (hist : List (List Char)) (b0 : LineBuffer) (i : Nat)
    (sv : List Char) (hlen : hist.length ≠ 0) :
    ∃ b, handleHistory hist (-1) ⟨b0, i + 2, some sv⟩ = ⟨b, i + 1, some sv⟩ := by
  have hd : ¬ (0 : Int) < -1 := by norm_num
  cases hg : historyGet hist (i + 1) with
  | none => exact ⟨b0, by simp [handleHistory, hlen, hd, hg]⟩
  | some e => exact ⟨LineBuffer.set b0 e, by simp [handleHistory, hlen, hd, hg]⟩

lemma hh_down_to_zero (hist : List (List Char)) (b0 : LineBuffer)
    (sv : List Char) (hlen : hist.length ≠ 0) :
    handleHistory hist (-1) ⟨b0, 1, some sv⟩ = ⟨LineBuffer.set b0 sv, 0, some sv⟩ := by
  have hd : ¬ (0 : Int) < -1 := by norm_num
  simp [handleHistory, hlen, hd]

lemma runSteps_up (hist : List (List Char)) (sv : List Char) :
    ∀ (n : Nat) (b0 : LineBuffer) (i : Nat), 1 ≤ i → i + n ≤ hist.length →
    ∃ b, runSteps hist 1 n ⟨b0, i, some sv⟩ = ⟨b, i + n, some sv⟩ := by
  intro n
  induction n with
  | zero => intro b0 i _ _; exact ⟨b0, rfl⟩
  | succ n ih =>
      intro b0 i h1 h2
      obtain ⟨b1, hb1⟩ := hh_step_up hist b0 i sv h1 (by omega)
      have h0 : runSteps hist 1 (n + 1) ⟨b0, i, some sv⟩ =
          runSteps hist 1 n (handleHistory hist 1 ⟨b0, i, some sv⟩) := rfl
      rw [h0, hb1]
      obtain ⟨b2, hb2⟩ := ih b1 (i + 1) (by omega) (by omega)
      have harith : i + 1 + n = i + (n + 1) := by omega
      rw [harith] at hb2
      exact ⟨b2, hb2⟩

lemma runSteps_up_from_start (hist : List (List Char)) (buf : LineBuffer)
    (k : Nat) (hk1 : 1 ≤ k) (hk2 : k ≤ hist.length) :
    ∃ b, runSteps hist 1 k ⟨buf, 0, none⟩ = ⟨b, k, some buf.chars⟩ := by
  obtain ⟨m, rfl⟩ : ∃ m, k = m + 1 := ⟨k - 1, by omega⟩
  obtain ⟨b1, hb1⟩ := hh_first_step hist buf (by omega)
  have h0 : runSteps hist 1 (m + 1) ⟨buf, 0, none⟩ =
      runSteps hist 1 m (handleHistory hist 1 ⟨buf, 0, none⟩) := rfl
  rw [h0, hb1]
  obtain ⟨b2, hb2⟩ := runSteps_up hist buf.chars m b1 1 (by omega) (by omega)
  have harith : 1 + m = m + 1 := by omega
  rw [harith] at hb2
  exact ⟨b2, hb2⟩

lemma runSteps_down (hist : List (List Char)) (sv : List Char)
    (hlen : hist.length ≠ 0) :
    ∀ (n : Nat) (b0 : LineBuffer),
    runSteps hist (-1) (n + 1) ⟨b0, n + 1, some sv⟩ =
      ⟨LineBuffer.set LineBuffer.new sv, 0, some sv⟩ := by
  intro n
  induction n with
  | zero =>
      intro b0
      have h0 : runSteps hist (-1) 1 ⟨b0, 1, some sv⟩ =
          handleHistory hist (-1) ⟨b0, 1, some sv⟩ := rfl
      rw [h0, hh_down_to_zero hist b0 sv hlen]
      rfl
  | succ n ih =>
      intro b0
      obtain ⟨b1, hb1⟩ := hh_step_down hist b0 n sv hlen
      have h0 : runSteps hist (-1) (n + 1 + 1) ⟨b0, n + 1 + 1, some sv⟩ =
          runSteps hist (-1) (n + 1) (handleHistory hist (-1) ⟨b0, n + 2, some sv⟩) := rfl
      rw [h0, hb1]
      exact ih b1

/-- C5: with non-empty history, from navigation index 0 with no saved line,
`k` "older" steps followed by `k` "newer" steps (for any `1 ≤ k ≤ history
length) return the navigation index to 0 and restore the original buffer
content; an "older" step at index = history length and a "newer" step at
index 0 leave the index unchanged. -/
theorem history_navigation_round_trip :
    (∀ (hist : List (List Char)) (buf : LineBuffer) (k : Nat),
        1 ≤ hist.length → 1 ≤ k → k ≤ hist.length →
        buf.chars.length ≤ LINENOISE_MAX_LINE - 1 →
        (runSteps hist (-1) k (runSteps hist 1 k ⟨buf, 0, none⟩)).history_index = 0
        ∧ (runSteps hist (-1) k (runSteps hist 1 k ⟨buf, 0, none⟩)).buffer.chars
            = buf.chars)
    ∧ (∀ (hist : List (List Char)) (s : NavState),
        s.history_index = hist.length →
        (handleHistory hist 1 s).history_index = hist.length)
    ∧ (∀ (hist : List (List Char)) (s : NavState),
        s.history_index = 0 →
        (handleHistory hist (-1) s).history_index = 0) := by
  refine ⟨?_, ?_, ?_⟩
  · intro hist buf k hlen hk1 hk2 hbuf
    have hne : hist.length ≠ 0 := by omega
    obtain ⟨m, rfl⟩ : ∃ m, k = m + 1 := ⟨k - 1, by omega⟩
    obtain ⟨b2, hb2⟩ := runSteps_up_from_start hist buf (m + 1) hk1 hk2
    rw [hb2, runSteps_down hist buf.chars hne m b2]
    refine ⟨rfl, ?_⟩
    show buf.chars.take (LINENOISE_MAX_LINE - 1) = buf.chars
    exact List.take_of_length_le hbuf
  · intro hist s hs
    by_cases h0 : hist.length = 0
    · simp [handleHistory, h0, hs]
    · have hcond : ¬ (s.history_index = 0 ∧ s.saved_line = none) := by
        intro hc
        exact h0 (by rw [← hs, hc.1])
      have hidx : ¬ s.history_index < hist.length := by omega
      have hnz : s.history_index ≠ 0 := by
        intro hz
        exact h0 (by rw [← hs, hz])
      simp only [handleHistory]
      rw [if_neg h0, if_neg hcond, if_pos (show (0 : Int) < 1 by norm_num),
        if_neg hidx, if_neg hnz]
      cases historyGet hist s.history_index with
      | none => exact hs
      | some e => exact hs
  · intro hist s hs
    by_cases h0 : hist.length = 0
    · simp [handleHistory, h0, hs]
    · have hd : ¬ (0 : Int) < -1 := by norm_num
      by_cases hsv : s.saved_line = none
      · simp [handleHistory, h0, hd, hs, hsv]
      · cases hg : s.saved_line with
        | none => exact absurd hg hsv
        | some sv => simp [handleHistory, h0, hd, hs, hg]

/-- Witness for C5 at a one-entry history and a one-character buffer. -/
theorem history_navigation_round_trip_witness :
    (runSteps [['a']] (-1) 1 (runSteps [['a']] 1 1 ⟨⟨['x'], 1⟩, 0, none⟩)).history_index = 0
    ∧ (runSteps [['a']] (-1) 1
        (runSteps [['a']] 1 1 ⟨⟨['x'], 1⟩, 0, none⟩)).buffer.chars = ['x'] :=
  history_navigation_round_trip.1 [['a']] ⟨['x'], 1⟩ 1
    (by decide) (by decide) (by decide) (by decide)

end Linenoisers
